import Mathlib

/-!
# Shallow embedding of `src/section_profiler.hpp`

The C++ header defines a scope-based hierarchical profiler:

* `SectionProfiler::Stats` (lines 56-63): one aggregate record per section,
  holding `total_time`, `call_count`, `min_time` (initialized to `+infinity`),
  `max_time`, `sum_squares` and a map `children` from section name to child
  `Stats`.
* The destructor `~SectionProfiler` (lines 32-46) folds one measured duration
  into the tracker's node and pops the thread-local active stack.
* The constructor (lines 17-30) resolves the tracker's node: under the top of
  the thread-local `active_stack()` if that stack is non-empty, otherwise in
  the process-wide root table `get_root_stats()`; `operator[]`
  default-constructs the node when absent.  The resolved pointer is stored in
  `current_stats` and the tracker is pushed on the stack.
* `report`/`print_stats` (lines 48-104) walk the tree recursively, computing
  average, variance (clamped at `0` before `sqrt`), printed min (with the
  `+infinity` initializer mapped to `0`) and percentage-of-parent.

Durations are embedded as exact rationals (`ℚ`), the idealization of the
`double` arithmetic of the source; `min_time` is an `Option ℚ` whose `none`
stands for the C++ initializer `+infinity`.  `std::unordered_map` is embedded
as an association list: `operator[]` references are stable and entries are
never erased, so a node's C++ identity (its address) corresponds exactly to
its access path from the root table, which is how node identity is
represented here.
-/

namespace SectionProfiler

/-- `SectionProfiler::Stats` (src/section_profiler.hpp lines 56-63).
`min_time = none` models the initializer `+infinity`; all other fields start
at the C++ default member initializers. -/
inductive Stats : Type where
  | mk (total_time : ℚ) (call_count : ℕ) (min_time : Option ℚ)
       (max_time : ℚ) (sum_squares : ℚ) (children : List (String × Stats))

/-- `total_time` field. -/
def Stats.total_time : Stats → ℚ
  | .mk t _ _ _ _ _ => t

/-- `call_count` field. -/
def Stats.call_count : Stats → ℕ
  | .mk _ c _ _ _ _ => c

/-- `min_time` field (`none` = `+infinity`). -/
def Stats.min_time : Stats → Option ℚ
  | .mk _ _ mn _ _ _ => mn

/-- `max_time` field. -/
def Stats.max_time : Stats → ℚ
  | .mk _ _ _ mx _ _ => mx

/-- `sum_squares` field. -/
def Stats.sum_squares : Stats → ℚ
  | .mk _ _ _ _ sq _ => sq

/-- `children` field. -/
def Stats.children : Stats → List (String × Stats)
  | .mk _ _ _ _ _ ch => ch

/-- A default-constructed `Stats` (the C++ default member initializers,
lines 57-62): zeros, `min_time = +infinity`, no children. -/
def Stats.init : Stats := .mk 0 0 none 0 0 []

/-- `std::min(min_time, duration)` where `min_time` may still be the
`+infinity` initializer. -/
def minOpt (m : Option ℚ) (d : ℚ) : Option ℚ :=
  match m with
  | none => some d
  | some x => some (min x d)

/-- The statistics update performed by `~SectionProfiler`
(src/section_profiler.hpp lines 39-43): `total_time += duration`,
`call_count++`, `min_time = min(min_time, duration)`,
`max_time = max(max_time, duration)`, `sum_squares += duration * duration`.
The `children` map is untouched. -/
def record (s : Stats) (d : ℚ) : Stats :=
  match s with
  | .mk t c mn mx sq ch => .mk (t + d) (c + 1) (minOpt mn d) (max mx d) (sq + d * d) ch

/-- Folding a whole sequence of durations into one node, one `record`
(destructor) at a time. -/
def recordAll (s : Stats) (l : List ℚ) : Stats :=
  l.foldl record s

/-! ## The shared tree and the tracker life cycle

`std::unordered_map` nodes are stable (references returned by `operator[]`
are never invalidated, and this program never erases entries), so a node's
C++ identity — the `Stats *` stored in `current_stats` — corresponds exactly
to its access path from the root table.  Node identity is therefore
represented as a `Path`, the list of section names from a root-table key
down to the node. -/

/-- A node identity: the chain of section names from the root table. -/
abbrev Path := List String

/-- The element type of `get_root_stats()` and of `Stats::children`. -/
abbrev NodeMap := List (String × Stats)

/-- Replace the `children` map of a node, keeping the five scalar fields. -/
def Stats.withChildren : Stats → NodeMap → Stats
  | .mk t c mn mx sq _, ch => .mk t c mn mx sq ch

/-- Key lookup in one map (first matching entry). -/
def mapLookup (n : String) : NodeMap → Option Stats
  | [] => none
  | (k, s) :: rest => if k = n then some s else mapLookup n rest

/-- Apply `f` to the entry with key `n`, if any (other entries untouched). -/
def mapUpdate (n : String) (f : Stats → Stats) : NodeMap → NodeMap
  | [] => []
  | (k, s) :: rest =>
    if k = n then (k, f s) :: rest else (k, s) :: mapUpdate n f rest

/-- Follow a path of section names through nested `children` maps. -/
def lookupAt : Path → NodeMap → Option Stats
  | [], _ => none
  | [n], m => mapLookup n m
  | n :: rest, m => (mapLookup n m).bind fun s => lookupAt rest s.children

/-- `operator[]` along a path (constructor lines 23-27): default-construct
the final node when absent.  Intermediate nodes are only traversed — in the
program the parent node always already exists (it is the node of the
enclosing open tracker). -/
def touch : Path → NodeMap → NodeMap
  | [], m => m
  | [n], m => if (mapLookup n m).isSome then m else (n, Stats.init) :: m
  | n :: rest, m =>
    mapUpdate n (fun s => s.withChildren (touch rest s.children)) m

/-- Mutation through the stored `current_stats` pointer: apply `f` to the
node at the given path (a no-op when the path is dangling, which reachable
states never produce). -/
def updateAt : Path → (Stats → Stats) → NodeMap → NodeMap
  | [], _, m => m
  | [n], f, m => mapUpdate n f m
  | n :: rest, f, m =>
    mapUpdate n (fun s => s.withChildren (updateAt rest f s.children)) m

/-- Process state: the root table `get_root_stats()` plus the per-thread
`active_stack()` of open trackers, each represented by its resolved node
path (its `current_stats`).  The head of each list is the stack top. -/
structure SysState where
  root : NodeMap
  stackOf : ℕ → List Path

/-- The empty start-of-process state. -/
def initState : SysState := ⟨[], fun _ => []⟩

/-- Parent resolution + own-node identity (constructor lines 20-27): with an
empty stack the node lives in the root table under `name`; otherwise it is
the child `name` of the node owned by the stack top. -/
def pathFor (stk : List Path) (name : String) : Path :=
  match stk with
  | [] => [name]
  | p :: _ => p ++ [name]

/-- The constructor `SectionProfiler::SectionProfiler` (lines 17-30) on
thread `t`: resolve/create the node and push the tracker. -/
def armStep (t : ℕ) (name : String) (σ : SysState) : SysState :=
  let p := pathFor (σ.stackOf t) name
  { root := touch p σ.root
    stackOf := fun u => if u = t then p :: σ.stackOf u else σ.stackOf u }

/-- The destructor `~SectionProfiler` (lines 32-46) of the tracker that
resolved path `p`, measuring duration `d` on thread `t`: fold `d` into the
node `current_stats` points at, then `active_stack().pop()` (which removes
the top, whatever it is). -/
def settleStep (t : ℕ) (p : Path) (d : ℚ) (σ : SysState) : SysState :=
  { root := updateAt p (fun s => record s d) σ.root
    stackOf := fun u => if u = t then (σ.stackOf u).tail else σ.stackOf u }

/-- A well-bracketed instrumented program on one thread: `.sect name body d
rest` is a lexical scope `{ SectionProfiler x(name); body }` whose exit
measures duration `d`, followed by `rest`.  C++ scope exit (any path,
exceptions included) runs the destructor exactly once at the closing brace,
which is what this bracketing captures. -/
inductive Prog : Type where
  | nil : Prog
  | sect (name : String) (body : Prog) (d : ℚ) (rest : Prog) : Prog

/-- Execution of a program on thread `t`: each section arms (constructor),
runs its body, settles (destructor, using the node path resolved at arm
time), then the following code runs. -/
def run (t : ℕ) : Prog → SysState → SysState
  | .nil, σ => σ
  | .sect name body d rest, σ =>
    let p := pathFor (σ.stackOf t) name
    run t rest (settleStep t p d (run t body (armStep t name σ)))

/-- The sequence of `record` events (node path, duration) produced by a
program, in execution order. -/
def settleTrace (t : ℕ) : Prog → SysState → List (Path × ℚ)
  | .nil, _ => []
  | .sect name body d rest, σ =>
    let p := pathFor (σ.stackOf t) name
    settleTrace t body (armStep t name σ) ++
      (p, d) :: settleTrace t rest
        (settleStep t p d (run t body (armStep t name σ)))

/-- The five scalar statistic fields of a node. -/
def scalarsOf (s : Stats) : ℚ × ℕ × Option ℚ × ℚ × ℚ :=
  (s.total_time, s.call_count, s.min_time, s.max_time, s.sum_squares)

/-- The key set of a node's `children` map. -/
def childKeys (s : Stats) : List String :=
  s.children.map Prod.fst

/-- The per-node data an outside observer sees without descending into
grandchildren: the five scalar fields plus the set of child keys. -/
def viewOf (s : Stats) : (ℚ × ℕ × Option ℚ × ℚ × ℚ) × List String :=
  (scalarsOf s, childKeys s)

/-! ## Report rendering (`SectionProfiler::print_stats`, lines 85-104) -/

/-- `avg` local of `print_stats` (line 88):
`call_count ? total_time / call_count : 0.0`. -/
def avgOf (s : Stats) : ℚ :=
  if s.call_count = 0 then 0 else s.total_time / (s.call_count : ℚ)

/-- `variance` local of `print_stats` (line 89):
`call_count ? sum_squares / call_count - avg * avg : 0.0`. -/
def varianceOf (s : Stats) : ℚ :=
  if s.call_count = 0 then 0
  else s.sum_squares / (s.call_count : ℚ) - avgOf s * avgOf s

/-- `stddev` local of `print_stats` (line 90):
`std::sqrt(std::max(0.0, variance))`.  The square root is the one place the
source leaves the rationals, so this single definition lives in `ℝ`. -/
noncomputable def stddevOf (s : Stats) : ℝ :=
  Real.sqrt (max 0 (varianceOf s : ℝ))

/-- One output row of `print_stats` (lines 93-98), with the fields exactly as
printed; `varClamped` is `max(0.0, variance)`, of which the printed `StdDev`
is the square root (`stddevOf`). -/
structure RenderLine where
  indent : String
  name : String
  total : ℚ
  avg : ℚ
  minOut : ℚ
  maxOut : ℚ
  varClamped : ℚ
  pct : ℚ
deriving DecidableEq, Repr

/-- The row printed for one map entry (lines 88-98): the `+infinity`
min-initializer prints as `0`, and the percentage is
`parent_time > 0.0 ? total_time / parent_time * 100.0 : 100.0`. -/
def mkLine (indent : String) (name : String) (s : Stats) (parent_time : ℚ) :
    RenderLine :=
  { indent := indent
    name := name
    total := s.total_time
    avg := avgOf s
    minOut := match s.min_time with
      | none => 0
      | some m => m
    maxOut := s.max_time
    varClamped := max 0 (varianceOf s)
    pct := if 0 < parent_time then s.total_time / parent_time * 100 else 100 }

/-- Termination measure fact for the recursion of `printStats`: a node's
`children` list is structurally smaller than the node. -/
def sizeOf_children_lt (s : Stats) : sizeOf s.children < sizeOf s := by
  rcases s with ⟨t, c, mn, mx, sq, ch⟩
  simp only [Stats.children, Stats.mk.sizeOf_spec]
  omega

/-- `print_stats` (lines 85-104): one row per entry, then the entry's
children indented two further spaces with the entry's `total_time` as the
new parent baseline, then the remaining entries. -/
def printStats : List (String × Stats) → String → ℚ → List RenderLine
  | [], _, _ => []
  | (name, s) :: rest, indent, parent_time =>
    mkLine indent name s parent_time ::
      ((if s.children.isEmpty then []
        else printStats s.children (indent ++ "  ") s.total_time) ++
        printStats rest indent parent_time)
termination_by m _ _ => sizeOf m
decreasing_by
  all_goals simp_wf
  all_goals have h := sizeOf_children_lt s
  all_goals omega

/-- `report` (lines 48-53): renders the root table with an empty indent and
parent baseline `0.0` (the banner lines carry no data and are omitted). -/
def report (root : List (String × Stats)) : List RenderLine :=
  printStats root "" 0

/-- A node with `call_count = 0` has never been through `record`, so its
scalar fields still hold the default member initializers. -/
def Fresh (s : Stats) : Prop :=
  s.call_count = 0 →
    s.total_time = 0 ∧ s.min_time = none ∧ s.max_time = 0 ∧ s.sum_squares = 0

/-- Every node reachable in the map satisfies `Fresh`. -/
def FreshTree (m : NodeMap) : Prop :=
  ∀ p s, lookupAt p m = some s → Fresh s

/-- A small concrete state: one root node `"a"`, and thread `0` has the
tracker owning `["a"]` open. -/
def demoState : SysState := ⟨[("a", Stats.init)], fun _ => [["a"]]⟩

/-! ## Lock discipline of the three entry points -/

/-- One entry-point event, read off the source: the source line, whether it
reads or writes the shared statistics tree (root table or a `children`
map), and whether `get_mutex()` is held at that point. -/
structure LockEvent where
  line : ℕ
  sharedTreeAccess : Bool
  lockHeld : Bool

/-- The constructor `SectionProfiler::SectionProfiler` (lines 17-30): reads
the thread-local `active_stack()` (line 20), resolves/creates the node in
the shared tree via `operator[]` (lines 23-27), pushes onto the
thread-local stack (line 29).  No `lock_guard` appears anywhere in the
constructor, so `lockHeld` is `false` throughout. -/
def ctorEvents : List LockEvent :=
  [⟨20, false, false⟩, ⟨24, true, false⟩, ⟨29, false, false⟩]

/-- The destructor `~SectionProfiler` (lines 32-46): `lock_guard` acquired
at line 36; the five statistics updates (lines 39-43) and the thread-local
pop (line 45) run under it. -/
def dtorEvents : List LockEvent :=
  [⟨39, true, true⟩, ⟨45, false, true⟩]

/-- `SectionProfiler::report` (lines 48-53): `lock_guard` acquired at line
49; the recursive `print_stats` traversal (line 51) runs under it. -/
def reportEvents : List LockEvent :=
  [⟨51, true, true⟩]

@[simp] theorem record_total (s : Stats) (d : ℚ) :
    (record s d).total_time = s.total_time + d := by
  cases s <;> rfl

@[simp] theorem record_count (s : Stats) (d : ℚ) :
    (record s d).call_count = s.call_count + 1 := by
  cases s <;> rfl

@[simp] theorem record_min (s : Stats) (d : ℚ) :
    (record s d).min_time = minOpt s.min_time d := by
  cases s <;> rfl

@[simp] theorem record_max (s : Stats) (d : ℚ) :
    (record s d).max_time = max s.max_time d := by
  cases s <;> rfl

@[simp] theorem record_sumsq (s : Stats) (d : ℚ) :
    (record s d).sum_squares = s.sum_squares + d * d := by
  cases s <;> rfl

@[simp] theorem record_children (s : Stats) (d : ℚ) :
    (record s d).children = s.children := by
  cases s <;> rfl

@[simp] theorem recordAll_nil (s : Stats) : recordAll s [] = s := rfl

@[simp] theorem recordAll_cons (s : Stats) (d : ℚ) (l : List ℚ) :
    recordAll s (d :: l) = recordAll (record s d) l := rfl

/-! ## Componentwise characterization of `recordAll` -/

theorem recordAll_count (l : List ℚ) (s : Stats) :
    (recordAll s l).call_count = s.call_count + l.length := by
  induction l generalizing s with
  | nil => simp
  | cons d tl ih => simp [ih (record s d)]; omega

theorem recordAll_total (l : List ℚ) (s : Stats) :
    (recordAll s l).total_time = s.total_time + l.sum := by
  induction l generalizing s with
  | nil => simp
  | cons d tl ih => simp [ih (record s d)]; ring

theorem recordAll_sumsq (l : List ℚ) (s : Stats) :
    (recordAll s l).sum_squares = s.sum_squares + (l.map fun d => d * d).sum := by
  induction l generalizing s with
  | nil => simp
  | cons d tl ih => simp [ih (record s d)]; ring

theorem recordAll_children (l : List ℚ) (s : Stats) :
    (recordAll s l).children = s.children := by
  induction l generalizing s with
  | nil => simp
  | cons d tl ih => simp [ih (record s d)]

theorem recordAll_min (l : List ℚ) (s : Stats) :
    (recordAll s l).min_time = l.foldl minOpt s.min_time := by
  induction l generalizing s with
  | nil => simp
  | cons d tl ih => simp [ih (record s d)]

theorem recordAll_max (l : List ℚ) (s : Stats) :
    (recordAll s l).max_time = l.foldl max s.max_time := by
  induction l generalizing s with
  | nil => simp
  | cons d tl ih => simp [ih (record s d)]

/-- `foldl min` starting from a known value: the result is the start or a
list element, lower-bounds the start, and lower-bounds every element. -/
theorem foldl_min_spec (l : List ℚ) (x : ℚ) :
    (l.foldl min x = x ∨ l.foldl min x ∈ l) ∧ l.foldl min x ≤ x ∧
      ∀ y ∈ l, l.foldl min x ≤ y := by
  induction l generalizing x with
  | nil => simp
  | cons d tl ih =>
    obtain ⟨hmem, hle, hall⟩ := ih (min x d)
    rw [List.foldl_cons]
    refine ⟨?_, le_trans hle (min_le_left _ _), ?_⟩
    · rcases hmem with h | h
      · rcases le_total x d with hxd | hdx
        · left; rw [h, min_eq_left hxd]
        · right
          rw [h, min_eq_right hdx]
          exact List.mem_cons_self _ _
      · exact Or.inr (List.mem_cons_of_mem _ h)
    · intro y hy
      rcases List.mem_cons.1 hy with h | h
      · subst h; exact le_trans hle (min_le_right _ _)
      · exact hall y h

/-- `foldl max` starting from a known value: the result is the start or a
list element, upper-bounds the start, and upper-bounds every element. -/
theorem foldl_max_spec (l : List ℚ) (x : ℚ) :
    (l.foldl max x = x ∨ l.foldl max x ∈ l) ∧ x ≤ l.foldl max x ∧
      ∀ y ∈ l, y ≤ l.foldl max x := by
  induction l generalizing x with
  | nil => simp
  | cons d tl ih =>
    obtain ⟨hmem, hle, hall⟩ := ih (max x d)
    rw [List.foldl_cons]
    refine ⟨?_, le_trans (le_max_left _ _) hle, ?_⟩
    · rcases hmem with h | h
      · rcases le_total x d with hxd | hdx
        · right
          rw [h, max_eq_right hxd]
          exact List.mem_cons_self _ _
        · left; rw [h, max_eq_left hdx]
      · exact Or.inr (List.mem_cons_of_mem _ h)
    · intro y hy
      rcases List.mem_cons.1 hy with h | h
      · subst h; exact le_trans (le_max_right _ _) hle
      · exact hall y h

/-- `foldl minOpt` from the `+infinity` initializer on a non-empty list lands
on the least element of the list. -/
theorem foldl_minOpt_spec (d : ℚ) (tl : List ℚ) :
    ∃ m, (d :: tl).foldl minOpt none = some m ∧ m ∈ d :: tl ∧
      ∀ y ∈ d :: tl, m ≤ y := by
  have hsome : ∀ (l : List ℚ) (x : ℚ), l.foldl minOpt (some x) = some (l.foldl min x) := by
    intro l
    induction l with
    | nil => intro x; rfl
    | cons e tl ih => intro x; simpa [minOpt] using ih (min x e)
  obtain ⟨hmem, -, hall⟩ := foldl_min_spec tl d
  refine ⟨tl.foldl min d, ?_, ?_, ?_⟩
  · simpa [minOpt] using hsome tl d
  · rcases hmem with h | h
    · rw [h]; exact List.mem_cons_self _ _
    · exact List.mem_cons_of_mem _ h
  · intro y hy
    rcases List.mem_cons.1 hy with h | h
    · subst h
      exact (foldl_min_spec tl y).2.1
    · exact hall y h

@[simp] theorem init_total : Stats.init.total_time = 0 := rfl

@[simp] theorem init_count : Stats.init.call_count = 0 := rfl

@[simp] theorem init_min : Stats.init.min_time = none := rfl

@[simp] theorem init_max : Stats.init.max_time = 0 := rfl

@[simp] theorem init_sumsq : Stats.init.sum_squares = 0 := rfl

@[simp] theorem init_children : Stats.init.children = [] := rfl

/-- If `m` lower-bounds every element then `|l| * m` lower-bounds the sum. -/
theorem length_mul_le_sum (l : List ℚ) (m : ℚ) (h : ∀ x ∈ l, m ≤ x) :
    (l.length : ℚ) * m ≤ l.sum := by
  induction l with
  | nil => simp
  | cons d tl ih =>
    have h1 : m ≤ d := h d (List.mem_cons_self _ _)
    have h2 : (tl.length : ℚ) * m ≤ tl.sum :=
      ih fun x hx => h x (List.mem_cons_of_mem _ hx)
    simp only [List.length_cons, List.sum_cons]
    push_cast
    nlinarith

/-- If `M` upper-bounds every element then `|l| * M` upper-bounds the sum. -/
theorem sum_le_length_mul (l : List ℚ) (M : ℚ) (h : ∀ x ∈ l, x ≤ M) :
    l.sum ≤ (l.length : ℚ) * M := by
  induction l with
  | nil => simp
  | cons d tl ih =>
    have h1 : d ≤ M := h d (List.mem_cons_self _ _)
    have h2 : tl.sum ≤ (tl.length : ℚ) * M :=
      ih fun x hx => h x (List.mem_cons_of_mem _ hx)
    simp only [List.length_cons, List.sum_cons]
    push_cast
    nlinarith

/-- Sums of squares are non-negative. -/
theorem sum_sq_nonneg (l : List ℚ) : 0 ≤ (l.map fun d => d * d).sum := by
  induction l with
  | nil => simp
  | cons d tl ih => simp only [List.map_cons, List.sum_cons]; nlinarith

/-- Cauchy–Schwarz for list sums: `(Σ d)² ≤ |l| · Σ d²`. -/
theorem sq_sum_le_length_mul_sum_sq (l : List ℚ) :
    l.sum * l.sum ≤ (l.length : ℚ) * (l.map fun d => d * d).sum := by
  induction l with
  | nil => simp
  | cons d tl ih =>
    by_cases h0 : tl = []
    · subst h0; simp
    · have hn : (1 : ℚ) ≤ (tl.length : ℚ) := by
        have := List.length_pos.2 h0
        exact_mod_cast this
      have hq : 0 ≤ (tl.map fun d => d * d).sum := sum_sq_nonneg tl
      simp only [List.length_cons, List.map_cons, List.sum_cons]
      push_cast
      have key : (tl.length : ℚ) *
          (((tl.length : ℚ) + 1) * (d * d + (tl.map fun d => d * d).sum) -
            (d + tl.sum) * (d + tl.sum)) =
          ((tl.length : ℚ) * d - tl.sum) ^ 2 +
            ((tl.length : ℚ) + 1) *
              ((tl.length : ℚ) * (tl.map fun d => d * d).sum - tl.sum * tl.sum) := by
        ring
      have hA : 0 ≤ (tl.length : ℚ) * (tl.map fun d => d * d).sum - tl.sum * tl.sum := by
        linarith
      have hpos : (0 : ℚ) < (tl.length : ℚ) := lt_of_lt_of_le one_pos hn
      nlinarith [key, sq_nonneg ((tl.length : ℚ) * d - tl.sum), hA, hpos]

/-- C2: fold of `N` durations into one node via the destructor's update
(lines 39-43) yields `call_count = N`, `total_time = Σ dᵢ`,
`sum_squares = Σ dᵢ²`, `min_time = min dᵢ` and `max_time = max dᵢ`. -/
theorem record_fold_statistics (l : List ℚ) (hne : l ≠ [])
    (hnn : ∀ d ∈ l, 0 ≤ d) :
    (recordAll Stats.init l).call_count = l.length ∧
    (recordAll Stats.init l).total_time = l.sum ∧
    (recordAll Stats.init l).sum_squares = (l.map fun d => d * d).sum ∧
    (∃ m, (recordAll Stats.init l).min_time = some m ∧ m ∈ l ∧ ∀ x ∈ l, m ≤ x) ∧
    ((recordAll Stats.init l).max_time ∈ l ∧
      ∀ x ∈ l, x ≤ (recordAll Stats.init l).max_time) := by
  obtain ⟨d, tl, rfl⟩ : ∃ d tl, l = d :: tl := by
    cases l with
    | nil => exact absurd rfl hne
    | cons d tl => exact ⟨d, tl, rfl⟩
  refine ⟨?_, ?_, ?_, ?_, ?_⟩
  · rw [recordAll_count]; simp
  · rw [recordAll_total]; simp
  · rw [recordAll_sumsq]; simp
  · rw [recordAll_min, init_min]
    exact foldl_minOpt_spec d tl
  · rw [recordAll_max, init_max]
    obtain ⟨hmem, -, hall⟩ := foldl_max_spec (d :: tl) 0
    refine ⟨?_, hall⟩
    rcases hmem with h | h
    · -- the fold stayed at the initializer `0`; then every element is `0`,
      -- and in particular the head, so `0` is itself in the list
      have hd0 : d = 0 := le_antisymm (h ▸ hall d (List.mem_cons_self _ _))
        (hnn d (List.mem_cons_self _ _))
      rw [h, ← hd0]
      exact List.mem_cons_self _ _
    · exact h

theorem record_fold_statistics_witness :
    (([2, 1, 3] : List ℚ) ≠ [] ∧ ∀ d ∈ ([2, 1, 3] : List ℚ), 0 ≤ d) ∧
      (recordAll Stats.init [2, 1, 3]).call_count = ([2, 1, 3] : List ℚ).length ∧
      (recordAll Stats.init [2, 1, 3]).total_time = ([2, 1, 3] : List ℚ).sum ∧
      (∃ m, (recordAll Stats.init [2, 1, 3]).min_time = some m ∧
        m ∈ ([2, 1, 3] : List ℚ) ∧ ∀ x ∈ ([2, 1, 3] : List ℚ), m ≤ x) :=
  ⟨⟨by decide, by decide⟩,
    (record_fold_statistics [2, 1, 3] (by decide) (by decide)).1,
    (record_fold_statistics [2, 1, 3] (by decide) (by decide)).2.1,
    (record_fold_statistics [2, 1, 3] (by decide) (by decide)).2.2.2.1⟩

/-- C5: a node folded from non-negative durations satisfies
`min_time ≤ total_time / call_count ≤ max_time` and has non-negative
variance numerator `sum_squares / call_count - (total_time / call_count)²`.
Quantifying over all duration sequences makes the invariant's preservation
by each single `record` step a special case (`l ++ [d]` is again such a
sequence). -/
theorem node_invariant (l : List ℚ) (hnn : ∀ d ∈ l, 0 ≤ d) (hne : l ≠ []) :
    (∃ m, (recordAll Stats.init l).min_time = some m ∧
      m ≤ (recordAll Stats.init l).total_time / (recordAll Stats.init l).call_count) ∧
    (recordAll Stats.init l).total_time / (recordAll Stats.init l).call_count ≤
      (recordAll Stats.init l).max_time ∧
    0 ≤ (recordAll Stats.init l).sum_squares / (recordAll Stats.init l).call_count -
      ((recordAll Stats.init l).total_time / (recordAll Stats.init l).call_count) *
        ((recordAll Stats.init l).total_time / (recordAll Stats.init l).call_count) := by
  obtain ⟨hcount, htotal, hsumsq, ⟨m, hmin, -, hmall⟩, -, hmaxall⟩ :=
    record_fold_statistics l hne hnn
  have hlen : 0 < l.length := List.length_pos.2 hne
  have hN : (0 : ℚ) < ((recordAll Stats.init l).call_count : ℚ) := by
    rw [hcount]; exact_mod_cast hlen
  refine ⟨⟨m, hmin, ?_⟩, ?_, ?_⟩
  · rw [le_div_iff hN, htotal, hcount, mul_comm]
    exact length_mul_le_sum l m hmall
  · rw [div_le_iff hN, htotal, hcount, mul_comm]
    exact sum_le_length_mul l _ hmaxall
  · have hcs := sq_sum_le_length_mul_sum_sq l
    have hL : (0 : ℚ) < (l.length : ℚ) := by exact_mod_cast hlen
    rw [sub_nonneg, htotal, hsumsq, hcount, div_mul_div_comm,
      div_le_div_iff (by positivity) hL]
    nlinarith [hcs, hL]

theorem node_invariant_witness :
    ((∀ d ∈ ([1, 3] : List ℚ), 0 ≤ d) ∧ ([1, 3] : List ℚ) ≠ []) ∧
      ((recordAll Stats.init [1, 3]).total_time /
          (recordAll Stats.init [1, 3]).call_count ≤
        (recordAll Stats.init [1, 3]).max_time) ∧
      0 ≤ (recordAll Stats.init [1, 3]).sum_squares /
            (recordAll Stats.init [1, 3]).call_count -
          ((recordAll Stats.init [1, 3]).total_time /
              (recordAll Stats.init [1, 3]).call_count) *
            ((recordAll Stats.init [1, 3]).total_time /
              (recordAll Stats.init [1, 3]).call_count) :=
  ⟨⟨by decide, by decide⟩,
    (node_invariant [1, 3] (by decide) (by decide)).2.1,
    (node_invariant [1, 3] (by decide) (by decide)).2.2⟩

/-- C6: the variance is clamped at `0` before the square root (line 90), so
the rendered standard deviation is never negative; and for a node holding
exactly one recorded duration the variance is exactly `0` and the standard
deviation exactly `0`. -/
theorem stddev_clamp (s : Stats) (d : ℚ) :
    (0 ≤ max 0 (varianceOf s) ∧ 0 ≤ stddevOf s) ∧
    (varianceOf (record Stats.init d) = 0 ∧
      max 0 (varianceOf (record Stats.init d)) = 0 ∧
      stddevOf (record Stats.init d) = 0) := by
  have h1 : varianceOf (record Stats.init d) = 0 := by
    simp [varianceOf, avgOf]
  refine ⟨⟨le_max_left _ _, Real.sqrt_nonneg _⟩, h1, by simp [h1], ?_⟩
  simp [stddevOf, h1]

/-- Any entry of the statistics map yields its row somewhere in the output
of `print_stats` at the same indent and parent baseline. -/
theorem mkLine_mem_printStats (m : List (String × Stats)) (ind : String)
    (p : ℚ) (name : String) (s : Stats) (hmem : (name, s) ∈ m) :
    mkLine ind name s p ∈ printStats m ind p := by
  induction m with
  | nil => cases hmem
  | cons hd rest ih =>
    obtain ⟨n0, s0⟩ := hd
    rcases List.mem_cons.1 hmem with h | h
    · rw [Prod.mk.injEq] at h
      obtain ⟨rfl, rfl⟩ := h
      simp [printStats]
    · simp only [printStats, List.mem_cons]
      exact Or.inr (List.mem_append_right _ (ih h))

/-- C7: the printed percentage is `total_time / parent_time * 100` when the
parent baseline is positive and `100` otherwise (line 91); root-table rows
are rendered with baseline `0.0` (line 51) and hence always print `100`;
and the baseline passed to a node's children is that node's own
`total_time` (line 101). -/
theorem percentage_of_parent (ind : String) (p : ℚ) (name : String)
    (s : Stats) (rest m : List (String × Stats)) :
    ((mkLine ind name s p).pct =
      if 0 < p then s.total_time / p * 100 else 100) ∧
    (p ≤ 0 → (mkLine ind name s p).pct = 100) ∧
    ((name, s) ∈ m →
      mkLine "" name s 0 ∈ report m ∧ (mkLine "" name s 0).pct = 100) ∧
    (printStats ((name, s) :: rest) ind p =
      mkLine ind name s p ::
        ((if s.children.isEmpty then []
          else printStats s.children (ind ++ "  ") s.total_time) ++
          printStats rest ind p)) := by
  refine ⟨rfl, ?_, ?_, ?_⟩
  · intro hp
    simp [mkLine, not_lt.2 hp]
  · intro hmem
    exact ⟨mkLine_mem_printStats m "" 0 name s hmem, by simp [mkLine]⟩
  · simp [printStats]

theorem percentage_of_parent_witness :
    ((-1 : ℚ) ≤ 0 ∧ ("a", Stats.init) ∈ [("a", Stats.init)]) ∧
      (mkLine "" "a" Stats.init (-1)).pct = 100 ∧
      (mkLine "" "a" Stats.init 0 ∈ report [("a", Stats.init)] ∧
        (mkLine "" "a" Stats.init 0).pct = 100) :=
  ⟨⟨by norm_num, List.mem_singleton.2 rfl⟩,
    (percentage_of_parent "" (-1) "a" Stats.init [] [("a", Stats.init)]).2.1
      (by norm_num),
    (percentage_of_parent "" 0 "a" Stats.init [] [("a", Stats.init)]).2.2.1
      (List.mem_singleton.2 rfl)⟩

/-! ## Map and tree lemmas -/

@[simp] theorem withChildren_children (s : Stats) (ch : NodeMap) :
    (s.withChildren ch).children = ch := by
  cases s; rfl

@[simp] theorem withChildren_total (s : Stats) (ch : NodeMap) :
    (s.withChildren ch).total_time = s.total_time := by
  cases s; rfl

@[simp] theorem withChildren_count (s : Stats) (ch : NodeMap) :
    (s.withChildren ch).call_count = s.call_count := by
  cases s; rfl

@[simp] theorem withChildren_min (s : Stats) (ch : NodeMap) :
    (s.withChildren ch).min_time = s.min_time := by
  cases s; rfl

@[simp] theorem withChildren_max (s : Stats) (ch : NodeMap) :
    (s.withChildren ch).max_time = s.max_time := by
  cases s; rfl

@[simp] theorem withChildren_sumsq (s : Stats) (ch : NodeMap) :
    (s.withChildren ch).sum_squares = s.sum_squares := by
  cases s; rfl

@[simp] theorem withChildren_self (s : Stats) :
    s.withChildren s.children = s := by
  cases s; rfl

@[simp] theorem withChildren_withChildren (s : Stats) (ch ch' : NodeMap) :
    (s.withChildren ch).withChildren ch' = s.withChildren ch' := by
  cases s; rfl

@[simp] theorem scalarsOf_withChildren (s : Stats) (ch : NodeMap) :
    scalarsOf (s.withChildren ch) = scalarsOf s := by
  simp [scalarsOf]

theorem mapLookup_update_self (n : String) (f : Stats → Stats) (m : NodeMap) :
    mapLookup n (mapUpdate n f m) = (mapLookup n m).map f := by
  induction m with
  | nil => rfl
  | cons e rest ih =>
    obtain ⟨k, s⟩ := e
    by_cases hk : k = n
    · simp [mapUpdate, mapLookup, hk]
    · simp [mapUpdate, mapLookup, hk, ih]

theorem mapLookup_update_other (n k : String) (hk : k ≠ n) (f : Stats → Stats)
    (m : NodeMap) : mapLookup k (mapUpdate n f m) = mapLookup k m := by
  induction m with
  | nil => rfl
  | cons e rest ih =>
    obtain ⟨k0, s⟩ := e
    by_cases h0 : k0 = n
    · subst h0
      simp [mapUpdate, mapLookup, Ne.symm hk]
    · by_cases h1 : k0 = k
      · simp [mapUpdate, mapLookup, h0, h1, hk]
      · simp [mapUpdate, mapLookup, h0, h1, ih]

theorem mapUpdate_keys (n : String) (f : Stats → Stats) (m : NodeMap) :
    (mapUpdate n f m).map Prod.fst = m.map Prod.fst := by
  induction m with
  | nil => rfl
  | cons e rest ih =>
    obtain ⟨k, s⟩ := e
    by_cases hk : k = n
    · simp [mapUpdate, hk]
    · simp [mapUpdate, hk, ih]

theorem mapUpdate_absent (n : String) (f : Stats → Stats) (m : NodeMap)
    (h : mapLookup n m = none) : mapUpdate n f m = m := by
  induction m with
  | nil => rfl
  | cons e rest ih =>
    obtain ⟨k, s⟩ := e
    by_cases hk : k = n
    · simp [mapLookup, hk] at h
    · simp [mapLookup, hk] at h
      simp [mapUpdate, hk, ih h]

theorem mapUpdate_congr (n : String) (f : Stats → Stats) (m : NodeMap)
    (s : Stats) (h : mapLookup n m = some s) (hf : f s = s) :
    mapUpdate n f m = m := by
  induction m with
  | nil => cases h
  | cons e rest ih =>
    obtain ⟨k, s0⟩ := e
    by_cases hk : k = n
    · simp [mapLookup, hk] at h
      subst h
      simp [mapUpdate, hk, hf]
    · simp [mapLookup, hk] at h
      simp [mapUpdate, hk, ih h]

theorem mapUpdate_comp (n : String) (f g : Stats → Stats) (m : NodeMap) :
    mapUpdate n g (mapUpdate n f m) = mapUpdate n (fun s => g (f s)) m := by
  induction m with
  | nil => rfl
  | cons e rest ih =>
    obtain ⟨k, s⟩ := e
    by_cases hk : k = n
    · simp [mapUpdate, hk]
    · simp [mapUpdate, hk, ih]

theorem mapUpdate_ext (n : String) (f g : Stats → Stats) (m : NodeMap)
    (h : ∀ s, f s = g s) : mapUpdate n f m = mapUpdate n g m := by
  induction m with
  | nil => rfl
  | cons e rest ih =>
    obtain ⟨k, s⟩ := e
    by_cases hk : k = n
    · simp [mapUpdate, hk, h s]
    · simp [mapUpdate, hk, ih]

@[simp] theorem lookupAt_nil (m : NodeMap) : lookupAt [] m = none := rfl

@[simp] theorem lookupAt_single (n : String) (m : NodeMap) :
    lookupAt [n] m = mapLookup n m := rfl

theorem lookupAt_cons₂ (n r : String) (rs : Path) (m : NodeMap) :
    lookupAt (n :: r :: rs) m =
      (mapLookup n m).bind fun s => lookupAt (r :: rs) s.children := rfl

@[simp] theorem touch_nil (m : NodeMap) : touch [] m = m := rfl

theorem touch_single (n : String) (m : NodeMap) :
    touch [n] m = if (mapLookup n m).isSome then m else (n, Stats.init) :: m := rfl

theorem touch_single_none (n : String) (m : NodeMap)
    (h : mapLookup n m = none) : touch [n] m = (n, Stats.init) :: m := by
  rw [touch_single, h]
  rfl

theorem touch_single_some (n : String) (m : NodeMap) (s : Stats)
    (h : mapLookup n m = some s) : touch [n] m = m := by
  rw [touch_single, h]
  rfl

theorem touch_cons₂ (n r : String) (rs : Path) (m : NodeMap) :
    touch (n :: r :: rs) m =
      mapUpdate n (fun s => s.withChildren (touch (r :: rs) s.children)) m := rfl

@[simp] theorem updateAt_nil (f : Stats → Stats) (m : NodeMap) :
    updateAt [] f m = m := rfl

@[simp] theorem updateAt_single (n : String) (f : Stats → Stats) (m : NodeMap) :
    updateAt [n] f m = mapUpdate n f m := rfl

theorem updateAt_cons₂ (n r : String) (rs : Path) (f : Stats → Stats)
    (m : NodeMap) :
    updateAt (n :: r :: rs) f m =
      mapUpdate n (fun s => s.withChildren (updateAt (r :: rs) f s.children)) m := rfl

theorem mapLookup_cons_ne (n k : String) (s0 : Stats) (m : NodeMap)
    (h : k ≠ n) : mapLookup k ((n, s0) :: m) = mapLookup k m := by
  simp [mapLookup, Ne.symm h]

theorem lookupAt_head_ne (k : String) (qt : Path) (n : String) (s0 : Stats)
    (m : NodeMap) (h : k ≠ n) :
    lookupAt (k :: qt) ((n, s0) :: m) = lookupAt (k :: qt) m := by
  cases qt with
  | nil => simp [mapLookup_cons_ne _ _ _ _ h]
  | cons a b => rw [lookupAt_cons₂, lookupAt_cons₂, mapLookup_cons_ne _ _ _ _ h]

theorem lookupAt_of_mapUpdate_ne (n k : String) (hk : k ≠ n)
    (f : Stats → Stats) (qt : Path) (m : NodeMap) :
    lookupAt (k :: qt) (mapUpdate n f m) = lookupAt (k :: qt) m := by
  cases qt with
  | nil => simp [mapLookup_update_other n k hk]
  | cons a b => rw [lookupAt_cons₂, lookupAt_cons₂, mapLookup_update_other n k hk]

/-- Looking up through the node updated at the same path: the update lands
exactly on the node the path denotes. -/
theorem lookupAt_updateAt_self (p : Path) (f : Stats → Stats) (m : NodeMap) :
    lookupAt p (updateAt p f m) = (lookupAt p m).map f := by
  induction p generalizing m with
  | nil => simp
  | cons n ptail ih =>
    cases ptail with
    | nil => simp [mapLookup_update_self]
    | cons r rs =>
      rw [updateAt_cons₂, lookupAt_cons₂, lookupAt_cons₂, mapLookup_update_self]
      cases h : mapLookup n m with
      | none => rfl
      | some s => simp [ih]

/-- `updateAt` never changes the top-level key set. -/
theorem updateAt_keys (p : Path) (f : Stats → Stats) (m : NodeMap) :
    (updateAt p f m).map Prod.fst = m.map Prod.fst := by
  cases p with
  | nil => rfl
  | cons n rest =>
    cases rest with
    | nil => simp [mapUpdate_keys]
    | cons r rs => rw [updateAt_cons₂]; exact mapUpdate_keys _ _ _

/-- A children-preserving update at path `p` leaves the observable view
(five scalars plus child keys) of every node at any other path unchanged. -/
theorem lookupAt_updateAt_other (p : Path) (f : Stats → Stats)
    (hf : ∀ s, (f s).children = s.children) :
    ∀ (q : Path) (m : NodeMap), q ≠ p →
      (lookupAt q (updateAt p f m)).map viewOf = (lookupAt q m).map viewOf := by
  induction p with
  | nil => intro q m _; simp
  | cons n ptail ih =>
    intro q m hne
    cases q with
    | nil => simp
    | cons k qtail =>
      by_cases hk : k = n
      · subst hk
        cases ptail with
        | nil =>
          cases qtail with
          | nil => exact absurd rfl hne
          | cons a b =>
            rw [updateAt_single, lookupAt_cons₂, lookupAt_cons₂, mapLookup_update_self]
            cases h : mapLookup k m with
            | none => rfl
            | some s => simp [hf s]
        | cons r rs =>
          rw [updateAt_cons₂]
          cases qtail with
          | nil =>
            rw [lookupAt_single, lookupAt_single, mapLookup_update_self]
            cases h : mapLookup k m with
            | none => rfl
            | some s =>
              simp [viewOf, scalarsOf, childKeys, updateAt_keys]
          | cons a b =>
            rw [lookupAt_cons₂, lookupAt_cons₂, mapLookup_update_self]
            cases h : mapLookup k m with
            | none => rfl
            | some s =>
              have hq : (a :: b : Path) ≠ r :: rs := by
                intro hh
                exact hne (by rw [hh])
              simp only [Option.map_some', Option.some_bind, withChildren_children]
              exact ih (a :: b) s.children hq
      · cases ptail with
        | nil =>
          rw [updateAt_single, lookupAt_of_mapUpdate_ne n k hk]
        | cons r rs =>
          rw [updateAt_cons₂, lookupAt_of_mapUpdate_ne n k hk]

/-- `touch` (node resolution) never removes a node and never changes any
existing node's scalar statistics. -/
theorem lookupAt_touch (p : Path) :
    ∀ (q : Path) (m : NodeMap) (s : Stats), lookupAt q m = some s →
      ∃ s', lookupAt q (touch p m) = some s' ∧ scalarsOf s' = scalarsOf s := by
  induction p with
  | nil => intro q m s h; exact ⟨s, h, rfl⟩
  | cons n ptail ih =>
    intro q m s h
    cases ptail with
    | nil =>
      cases hm : mapLookup n m with
      | some s0 =>
        rw [touch_single_some n m s0 hm]
        exact ⟨s, h, rfl⟩
      | none =>
        rw [touch_single_none n m hm]
        cases q with
        | nil => cases h
        | cons k qtail =>
          have hkn : k ≠ n := by
            intro hkeq
            subst hkeq
            cases qtail with
            | nil =>
              rw [lookupAt_single, hm] at h
              cases h
            | cons a b =>
              rw [lookupAt_cons₂, hm] at h
              cases h
          rw [lookupAt_head_ne k qtail n Stats.init m hkn]
          exact ⟨s, h, rfl⟩
    | cons r rs =>
      rw [touch_cons₂]
      cases q with
      | nil => cases h
      | cons k qtail =>
        by_cases hk : k = n
        · subst hk
          cases qtail with
          | nil =>
            rw [lookupAt_single] at h
            rw [lookupAt_single, mapLookup_update_self, h]
            exact ⟨_, rfl, by simp⟩
          | cons a b =>
            rw [lookupAt_cons₂] at h
            rw [lookupAt_cons₂, mapLookup_update_self]
            cases hm : mapLookup k m with
            | none => rw [hm] at h; cases h
            | some s0 =>
              rw [hm] at h
              simp only [Option.map_some', Option.some_bind, withChildren_children]
              exact ih (a :: b) s0.children s h
        · rw [lookupAt_of_mapUpdate_ne n k hk]
          exact ⟨s, h, rfl⟩

/-- Resolving a node that already exists leaves the tree bitwise unchanged
(the `operator[]` lookup path finds every map entry already present). -/
theorem touch_of_present (p : Path) :
    ∀ (m : NodeMap) (s : Stats), lookupAt p m = some s → touch p m = m := by
  induction p with
  | nil => intro m s _; rfl
  | cons n ptail ih =>
    intro m s h
    cases ptail with
    | nil =>
      rw [lookupAt_single] at h
      rw [touch_single, h]
      rfl
    | cons r rs =>
      rw [lookupAt_cons₂] at h
      rw [touch_cons₂]
      cases hm : mapLookup n m with
      | none => rw [hm] at h; cases h
      | some s0 =>
        rw [hm] at h
        have hch : touch (r :: rs) s0.children = s0.children := ih s0.children s h
        exact mapUpdate_congr n _ m s0 hm (by rw [hch, withChildren_self])

/-- Node resolution is idempotent: touching the same path twice is the same
as touching it once. -/
theorem touch_touch (p : Path) : ∀ m : NodeMap, touch p (touch p m) = touch p m := by
  induction p with
  | nil => intro m; rfl
  | cons n ptail ih =>
    intro m
    cases ptail with
    | nil =>
      cases hm : mapLookup n m with
      | some s0 =>
        rw [touch_single_some n m s0 hm, touch_single_some n m s0 hm]
      | none =>
        rw [touch_single_none n m hm]
        exact touch_single_some n _ Stats.init (by simp [mapLookup])
    | cons r rs =>
      rw [touch_cons₂, touch_cons₂, mapUpdate_comp]
      refine mapUpdate_ext n _ _ m fun s => ?_
      simp [ih]

theorem mapLookup_touch_single_isSome (n : String) (m : NodeMap) :
    (mapLookup n (touch [n] m)).isSome := by
  cases hm : mapLookup n m with
  | some s =>
    rw [touch_single_some n m s hm, hm]
    rfl
  | none =>
    rw [touch_single_none n m hm]
    simp [mapLookup]

/-- Touching the child path `pA ++ [name]` when the parent `pA` exists:
the parent keeps its scalars, gains (or keeps) the child entry `name`, and
the child node itself exists afterwards. -/
theorem lookupAt_touch_child (pA : Path) (name : String) :
    ∀ (m : NodeMap) (sA : Stats), lookupAt pA m = some sA →
      ∃ sA', lookupAt pA (touch (pA ++ [name]) m) = some sA' ∧
        scalarsOf sA' = scalarsOf sA ∧
        (mapLookup name sA'.children).isSome ∧
        (lookupAt (pA ++ [name]) (touch (pA ++ [name]) m)).isSome := by
  induction pA with
  | nil => intro m sA h; cases h
  | cons a atail ih =>
    intro m sA h
    cases atail with
    | nil =>
      rw [lookupAt_single] at h
      have hcons : ([a] : Path) ++ [name] = a :: [name] := rfl
      rw [hcons, touch_cons₂]
      refine ⟨sA.withChildren (touch [name] sA.children), ?_, by simp, ?_, ?_⟩
      · rw [lookupAt_single, mapLookup_update_self, h]
        rfl
      · rw [withChildren_children]
        exact mapLookup_touch_single_isSome name sA.children
      · rw [lookupAt_cons₂, mapLookup_update_self, h]
        simp only [Option.map_some', Option.some_bind, withChildren_children, lookupAt_single]
        exact mapLookup_touch_single_isSome name sA.children
    | cons b bs =>
      rw [lookupAt_cons₂] at h
      cases hm : mapLookup a m with
      | none => rw [hm] at h; cases h
      | some s0 =>
        rw [hm] at h
        have hcons : (a :: b :: bs : Path) ++ [name] = a :: ((b :: bs : Path) ++ [name]) := rfl
        obtain ⟨sA', h1, h2, h3, h4⟩ := ih s0.children sA h
        have hne : ((b :: bs : Path) ++ [name]) = b :: (bs ++ [name]) := rfl
        refine ⟨sA', ?_, h2, h3, ?_⟩
        · rw [hcons, hne, touch_cons₂, lookupAt_cons₂, mapLookup_update_self, hm]
          simpa [hne] using h1
        · rw [hcons, hne, touch_cons₂]
          have : lookupAt (a :: (b :: (bs ++ [name])))
              (mapUpdate a (fun s => s.withChildren (touch (b :: (bs ++ [name])) s.children)) m) =
              lookupAt (b :: (bs ++ [name])) (touch (b :: (bs ++ [name])) s0.children) := by
            rw [lookupAt_cons₂, mapLookup_update_self, hm]
            simp
          rw [this]
          simpa [hne] using h4


/-! ## The freshness invariant: a never-recorded node still has its
default-constructed field values -/

theorem lookupAt_empty (q : Path) : lookupAt q ([] : NodeMap) = none := by
  cases q with
  | nil => rfl
  | cons a b =>
    cases b with
    | nil => rfl
    | cons c d => rfl

theorem fresh_init : Fresh Stats.init := fun _ => ⟨rfl, rfl, rfl, rfl⟩

theorem freshTree_nil : FreshTree [] := by
  intro p s h
  rw [lookupAt_empty] at h
  cases h

theorem fresh_of_scalars (s s' : Stats) (h : scalarsOf s' = scalarsOf s)
    (hf : Fresh s) : Fresh s' := by
  have h1 := congrArg Prod.fst h
  have h2 := congrArg (fun x => x.2.1) h
  have h3 := congrArg (fun x => x.2.2.1) h
  have h4 := congrArg (fun x => x.2.2.2.1) h
  have h5 := congrArg (fun x => x.2.2.2.2) h
  simp only [scalarsOf] at h1 h2 h3 h4 h5
  intro hc
  rw [h1, h3, h4, h5]
  exact hf (h2 ▸ hc)

theorem freshTree_children (m : NodeMap) (n : String) (s0 : Stats)
    (hm : FreshTree m) (h : mapLookup n m = some s0) :
    FreshTree s0.children := by
  intro q s hq
  cases q with
  | nil => cases hq
  | cons a b =>
    apply hm (n :: a :: b) s
    rw [lookupAt_cons₂, h, Option.some_bind]
    exact hq

theorem freshTree_touch (p : Path) :
    ∀ m : NodeMap, FreshTree m → FreshTree (touch p m) := by
  induction p with
  | nil => intro m hm; exact hm
  | cons n ptail ih =>
    intro m hm
    cases ptail with
    | nil =>
      cases hmn : mapLookup n m with
      | some s0 =>
        rw [touch_single_some n m s0 hmn]
        exact hm
      | none =>
        rw [touch_single_none n m hmn]
        intro q s hq
        cases q with
        | nil => cases hq
        | cons k qt =>
          by_cases hk : k = n
          · subst hk
            have hhd : mapLookup k ((k, Stats.init) :: m) = some Stats.init := by
              simp [mapLookup]
            cases qt with
            | nil =>
              rw [lookupAt_single, hhd] at hq
              have : s = Stats.init := (Option.some.inj hq).symm
              subst this
              exact fresh_init
            | cons a b =>
              rw [lookupAt_cons₂, hhd, Option.some_bind, init_children,
                lookupAt_empty] at hq
              cases hq
          · rw [lookupAt_head_ne k qt n Stats.init m hk] at hq
            exact hm (k :: qt) s hq
    | cons r rs =>
      rw [touch_cons₂]
      intro q s hq
      cases q with
      | nil => cases hq
      | cons k qt =>
        by_cases hk : k = n
        · subst hk
          cases hmn : mapLookup k m with
          | none =>
            rw [mapUpdate_absent k _ m hmn] at hq
            exact hm _ _ hq
          | some s0 =>
            have hl : mapLookup k (mapUpdate k
                (fun s => s.withChildren (touch (r :: rs) s.children)) m) =
                some (s0.withChildren (touch (r :: rs) s0.children)) := by
              rw [mapLookup_update_self, hmn]
              rfl
            cases qt with
            | nil =>
              rw [lookupAt_single, hl] at hq
              have hs := (Option.some.inj hq).symm
              subst hs
              exact fresh_of_scalars s0 _ (by simp)
                (hm [k] s0 (by rw [lookupAt_single]; exact hmn))
            | cons a b =>
              rw [lookupAt_cons₂, hl, Option.some_bind, withChildren_children] at hq
              exact ih s0.children (freshTree_children m k s0 hm hmn) (a :: b) s hq
        · rw [lookupAt_of_mapUpdate_ne n k hk] at hq
          exact hm _ _ hq

theorem freshTree_updateRecord (p : Path) (d : ℚ) :
    ∀ m : NodeMap, FreshTree m →
      FreshTree (updateAt p (fun s => record s d) m) := by
  induction p with
  | nil => intro m hm; simpa using hm
  | cons n ptail ih =>
    intro m hm
    cases ptail with
    | nil =>
      rw [updateAt_single]
      intro q s hq
      cases q with
      | nil => cases hq
      | cons k qt =>
        by_cases hk : k = n
        · subst hk
          cases hmn : mapLookup k m with
          | none =>
            rw [mapUpdate_absent k _ m hmn] at hq
            exact hm _ _ hq
          | some s0 =>
            have hl : mapLookup k (mapUpdate k (fun s => record s d) m) =
                some (record s0 d) := by
              rw [mapLookup_update_self, hmn]
              rfl
            cases qt with
            | nil =>
              rw [lookupAt_single, hl] at hq
              have hs := (Option.some.inj hq).symm
              subst hs
              intro hc
              rw [record_count] at hc
              omega
            | cons a b =>
              rw [lookupAt_cons₂, hl, Option.some_bind, record_children] at hq
              exact freshTree_children m k s0 hm hmn (a :: b) s hq
        · rw [lookupAt_of_mapUpdate_ne n k hk] at hq
          exact hm _ _ hq
    | cons r rs =>
      rw [updateAt_cons₂]
      intro q s hq
      cases q with
      | nil => cases hq
      | cons k qt =>
        by_cases hk : k = n
        · subst hk
          cases hmn : mapLookup k m with
          | none =>
            rw [mapUpdate_absent k _ m hmn] at hq
            exact hm _ _ hq
          | some s0 =>
            have hl : mapLookup k (mapUpdate k
                (fun s => s.withChildren
                  (updateAt (r :: rs) (fun s => record s d) s.children)) m) =
                some (s0.withChildren
                  (updateAt (r :: rs) (fun s => record s d) s0.children)) := by
              rw [mapLookup_update_self, hmn]
              rfl
            cases qt with
            | nil =>
              rw [lookupAt_single, hl] at hq
              have hs := (Option.some.inj hq).symm
              subst hs
              exact fresh_of_scalars s0 _ (by simp)
                (hm [k] s0 (by rw [lookupAt_single]; exact hmn))
            | cons a b =>
              rw [lookupAt_cons₂, hl, Option.some_bind, withChildren_children] at hq
              exact ih s0.children (freshTree_children m k s0 hm hmn) (a :: b) s hq
        · rw [lookupAt_of_mapUpdate_ne n k hk] at hq
          exact hm _ _ hq

theorem freshTree_armStep (t : ℕ) (name : String) (σ : SysState)
    (h : FreshTree σ.root) : FreshTree (armStep t name σ).root :=
  freshTree_touch _ _ h

theorem freshTree_settleStep (t : ℕ) (p : Path) (d : ℚ) (σ : SysState)
    (h : FreshTree σ.root) : FreshTree (settleStep t p d σ).root :=
  freshTree_updateRecord p d _ h

theorem freshTree_run (t : ℕ) (prog : Prog) :
    ∀ σ : SysState, FreshTree σ.root → FreshTree (run t prog σ).root := by
  induction prog with
  | nil => intro σ h; exact h
  | sect name body d rest ihb ihr =>
    intro σ h
    simp only [run]
    exact ihr _ (freshTree_settleStep _ _ _ _ (ihb _ (freshTree_armStep t name σ h)))

/-! ## Stack discipline -/

/-- Running any well-bracketed program leaves every thread's active stack
exactly as it was: each settle pops precisely what its arm pushed. -/
theorem run_stackOf (t : ℕ) (prog : Prog) :
    ∀ (σ : SysState) (u : ℕ), (run t prog σ).stackOf u = σ.stackOf u := by
  induction prog with
  | nil => intro σ u; rfl
  | sect name body d rest ihb ihr =>
    intro σ u
    simp only [run]
    rw [ihr]
    by_cases hu : u = t
    · subst hu
      simp [settleStep, armStep, ihb]
    · simp [settleStep, armStep, hu, ihb]

/-- C9: trackers on one thread settle in strictly reverse order of arming.
The arm pushes the tracker's frame; after the whole body has run the stack
top is still exactly that frame, so the destructor's `pop` removes
precisely the frame its own constructor pushed; the stack is restored after
the section; and in the event trace the section's own `record` comes after
every `record` of its body (children first), before the code that follows. -/
theorem lifo_settle_order (t : ℕ) (name : String) (body : Prog) (d : ℚ)
    (rest : Prog) (σ : SysState) :
    ((armStep t name σ).stackOf t =
      pathFor (σ.stackOf t) name :: σ.stackOf t) ∧
    ((run t body (armStep t name σ)).stackOf t =
      pathFor (σ.stackOf t) name :: σ.stackOf t) ∧
    (∀ u, (run t (.sect name body d rest) σ).stackOf u = σ.stackOf u) ∧
    (settleTrace t (.sect name body d rest) σ =
      settleTrace t body (armStep t name σ) ++
        (pathFor (σ.stackOf t) name, d) ::
          settleTrace t rest (settleStep t (pathFor (σ.stackOf t) name) d
            (run t body (armStep t name σ)))) := by
  refine ⟨by simp [armStep], ?_, ?_, rfl⟩
  · rw [run_stackOf]
    simp [armStep]
  · intro u
    exact run_stackOf t _ σ u

/-- C10: the destructor's tree mutation touches only the five scalar fields
of its own node.  At the settled path the node is exactly `record`-updated
(children untouched); at every other path the observable view — scalars and
child keys — is unchanged; the root-table key set is unchanged; and the
only stack change is popping the top of the settling thread's own stack. -/
theorem settle_frame_effect (t : ℕ) (p : Path) (d : ℚ) (σ : SysState)
    (s : Stats) :
    (lookupAt p σ.root = some s →
      lookupAt p (settleStep t p d σ).root = some (record s d) ∧
      record s d = Stats.mk (s.total_time + d) (s.call_count + 1)
        (minOpt s.min_time d) (max s.max_time d) (s.sum_squares + d * d)
        s.children) ∧
    (∀ q, q ≠ p →
      (lookupAt q (settleStep t p d σ).root).map viewOf =
        (lookupAt q σ.root).map viewOf) ∧
    ((settleStep t p d σ).root.map Prod.fst = σ.root.map Prod.fst) ∧
    (∀ u, u ≠ t → (settleStep t p d σ).stackOf u = σ.stackOf u) ∧
    ((settleStep t p d σ).stackOf t = (σ.stackOf t).tail) ∧
    (∀ tl, σ.stackOf t = p :: tl → (settleStep t p d σ).stackOf t = tl) := by
  refine ⟨?_, ?_, ?_, ?_, ?_, ?_⟩
  · intro hs
    constructor
    · show lookupAt p (updateAt p (fun s => record s d) σ.root) = _
      rw [lookupAt_updateAt_self, hs]
      rfl
    · cases s
      rfl
  · intro q hq
    exact lookupAt_updateAt_other p _ (fun s0 => record_children s0 d) q σ.root hq
  · exact updateAt_keys p _ σ.root
  · intro u hu
    simp [settleStep, hu]
  · simp [settleStep]
  · intro tl htl
    simp [settleStep, htl]

theorem settle_frame_effect_witness :
    (lookupAt ["a"] ([("a", Stats.init), ("b", Stats.init)] : NodeMap) =
        some Stats.init ∧
      (["b"] : Path) ≠ ["a"]) ∧
      (lookupAt ["a"]
        (settleStep 0 ["a"] 5 ⟨[("a", Stats.init), ("b", Stats.init)],
          fun _ => [["a"]]⟩).root = some (record Stats.init 5)) ∧
      ((lookupAt ["b"]
        (settleStep 0 ["a"] 5 ⟨[("a", Stats.init), ("b", Stats.init)],
          fun _ => [["a"]]⟩).root).map viewOf =
        (lookupAt ["b"] ([("a", Stats.init), ("b", Stats.init)] : NodeMap)).map
          viewOf) ∧
      (settleStep 0 ["a"] 5 ⟨[("a", Stats.init), ("b", Stats.init)],
          fun _ => [["a"]]⟩).stackOf 0 = [] := by
  have hl : lookupAt ["a"] ([("a", Stats.init), ("b", Stats.init)] : NodeMap) =
      some Stats.init := by
    simp [mapLookup]
  have h := settle_frame_effect 0 ["a"] 5
    ⟨[("a", Stats.init), ("b", Stats.init)], fun _ => [["a"]]⟩ Stats.init
  refine ⟨⟨hl, by simp⟩, (h.1 hl).1, h.2.1 ["b"] (by simp), ?_⟩
  exact h.2.2.2.2.2 [] rfl

/-- C3: a tracker constructed while the thread's active stack is non-empty
resolves its node as child `name` of the node owned by the stack top (and
that node is not a root-table node); with an empty stack it resolves in the
root table. -/
theorem nesting_parent_child (t : ℕ) (name : String) (σ : SysState) :
    (∀ pA stk, σ.stackOf t = pA :: stk →
      pathFor (σ.stackOf t) name = pA ++ [name] ∧
      (armStep t name σ).stackOf t = (pA ++ [name]) :: pA :: stk ∧
      (pA ≠ [] → ∀ x : String, pA ++ [name] ≠ [x]) ∧
      ∀ sA, lookupAt pA σ.root = some sA →
        ∃ sA', lookupAt pA (armStep t name σ).root = some sA' ∧
          scalarsOf sA' = scalarsOf sA ∧
          (mapLookup name sA'.children).isSome ∧
          (lookupAt (pA ++ [name]) (armStep t name σ).root).isSome) ∧
    (σ.stackOf t = [] →
      pathFor (σ.stackOf t) name = [name] ∧
      (armStep t name σ).stackOf t = [[name]] ∧
      (mapLookup name (armStep t name σ).root).isSome) := by
  constructor
  · intro pA stk hstk
    have hpath : pathFor (σ.stackOf t) name = pA ++ [name] := by
      rw [hstk]
      rfl
    refine ⟨hpath, ?_, ?_, ?_⟩
    · simp [armStep, pathFor, hstk]
    · intro hne x
      cases pA with
      | nil => exact absurd rfl hne
      | cons a b => simp
    · intro sA hsA
      have harm : (armStep t name σ).root = touch (pA ++ [name]) σ.root := by
        simp [armStep, hpath]
      rw [harm]
      exact lookupAt_touch_child pA name σ.root sA hsA
  · intro hstk
    have hpath : pathFor (σ.stackOf t) name = [name] := by
      rw [hstk]
      rfl
    refine ⟨hpath, by simp [armStep, pathFor, hstk], ?_⟩
    have harm : (armStep t name σ).root = touch [name] σ.root := by
      simp [armStep, hpath]
    rw [harm]
    exact mapLookup_touch_single_isSome name σ.root

theorem nesting_parent_child_witness :
    (demoState.stackOf 0 = ["a"] :: [] ∧
      lookupAt ["a"] demoState.root = some Stats.init) ∧
      pathFor (demoState.stackOf 0) "b" = ["a", "b"] ∧
      (∀ x : String, (["a"] : Path) ++ ["b"] ≠ [x]) ∧
      ∃ sA', lookupAt ["a"] (armStep 0 "b" demoState).root = some sA' ∧
        scalarsOf sA' = scalarsOf Stats.init ∧
        (mapLookup "b" sA'.children).isSome ∧
        (lookupAt (["a"] ++ ["b"]) (armStep 0 "b" demoState).root).isSome := by
  have hl : lookupAt ["a"] demoState.root = some Stats.init := by
    simp [demoState, mapLookup]
  have h := (nesting_parent_child 0 "b" demoState).1 ["a"] [] rfl
  exact ⟨⟨rfl, hl⟩, h.1, h.2.2.1 (by simp), h.2.2.2 Stats.init hl⟩

/-- C4: node resolution is idempotent on identity.  Touching a path twice
is touching it once; resolving an existing node leaves the tree unchanged
(same instance); an existing node survives — with its scalars intact — any
further resolution and any `record` update elsewhere; and two sections run
back-to-back with the same name under the same (empty) parent context
accumulate into the single shared node (`call_count` reaching `2`), adding
exactly one root key rather than creating a sibling. -/
theorem resolve_same_node (p q : Path) (m : NodeMap) (s : Stats) (t : ℕ)
    (X : String) (d1 d2 : ℚ) (σ : SysState) :
    (touch p (touch p m) = touch p m) ∧
    (lookupAt p m = some s → touch p m = m) ∧
    (lookupAt q m = some s →
      (∃ s', lookupAt q (touch p m) = some s' ∧ scalarsOf s' = scalarsOf s) ∧
      ∀ d : ℚ, (lookupAt q (updateAt p (fun s0 => record s0 d) m)).isSome) ∧
    (σ.stackOf t = [] → mapLookup X σ.root = none →
      mapLookup X (run t (.sect X .nil d1 (.sect X .nil d2 .nil)) σ).root =
        some (record (record Stats.init d1) d2) ∧
      (record (record Stats.init d1) d2).call_count = 2 ∧
      (run t (.sect X .nil d1 (.sect X .nil d2 .nil)) σ).root.map Prod.fst =
        X :: σ.root.map Prod.fst) := by
  refine ⟨touch_touch p m, touch_of_present p m s, ?_, ?_⟩
  · intro hq
    refine ⟨lookupAt_touch p q m s hq, ?_⟩
    intro d
    by_cases hqp : q = p
    · subst hqp
      rw [lookupAt_updateAt_self, hq]
      rfl
    · have hv := lookupAt_updateAt_other p _
        (fun s0 => record_children s0 d) q m hqp
      rw [hq] at hv
      cases hL : lookupAt q (updateAt p (fun s0 => record s0 d) m) with
      | none => rw [hL] at hv; cases hv
      | some s' => rfl
  · intro h1 h2
    have e1 : pathFor (σ.stackOf t) X = [X] := by
      rw [h1]
      rfl
    have hroot1 : (armStep t X σ).root = (X, Stats.init) :: σ.root := by
      show touch (pathFor (σ.stackOf t) X) σ.root = _
      rw [e1]
      exact touch_single_none X σ.root h2
    have hstk1t : (armStep t X σ).stackOf t = [[X]] := by
      simp [armStep, pathFor, h1]
    have hroot2 : (settleStep t [X] d1 (armStep t X σ)).root =
        (X, record Stats.init d1) :: σ.root := by
      show updateAt [X] (fun s => record s d1) (armStep t X σ).root = _
      rw [hroot1]
      simp [mapUpdate]
    have hstk2t : (settleStep t [X] d1 (armStep t X σ)).stackOf t = [] := by
      simp [settleStep, hstk1t]
    have e2 : pathFor ((settleStep t [X] d1 (armStep t X σ)).stackOf t) X =
        [X] := by
      rw [hstk2t]
      rfl
    have hlook2 : mapLookup X ((X, record Stats.init d1) :: σ.root) =
        some (record Stats.init d1) := by
      simp [mapLookup]
    have hroot3 : (armStep t X (settleStep t [X] d1 (armStep t X σ))).root =
        (X, record Stats.init d1) :: σ.root := by
      show touch (pathFor ((settleStep t [X] d1 (armStep t X σ)).stackOf t) X)
          (settleStep t [X] d1 (armStep t X σ)).root = _
      rw [hstk2t, hroot2]
      exact touch_single_some X _ _ hlook2
    have hroot4 : (settleStep t [X] d2
        (armStep t X (settleStep t [X] d1 (armStep t X σ)))).root =
        (X, record (record Stats.init d1) d2) :: σ.root := by
      show updateAt [X] (fun s => record s d2)
          (armStep t X (settleStep t [X] d1 (armStep t X σ))).root = _
      rw [hroot3]
      simp [mapUpdate]
    have hrun : (run t (.sect X .nil d1 (.sect X .nil d2 .nil)) σ).root =
        (X, record (record Stats.init d1) d2) :: σ.root := by
      simp only [run]
      rw [e1, e2, hroot4]
    refine ⟨?_, by simp, ?_⟩
    · rw [hrun]
      simp [mapLookup]
    · rw [hrun]
      simp

theorem resolve_same_node_witness :
    (lookupAt ["a"] ([("a", Stats.init)] : NodeMap) = some Stats.init ∧
      initState.stackOf 0 = [] ∧ mapLookup "r" initState.root = none) ∧
      touch ["a"] (touch ["a"] ([("a", Stats.init)] : NodeMap)) =
        touch ["a"] ([("a", Stats.init)] : NodeMap) ∧
      touch ["a"] ([("a", Stats.init)] : NodeMap) = [("a", Stats.init)] ∧
      mapLookup "r"
        (run 0 (.sect "r" .nil 1 (.sect "r" .nil 2 .nil)) initState).root =
        some (record (record Stats.init 1) 2) ∧
      (record (record Stats.init 1) 2).call_count = 2 ∧
      (run 0 (.sect "r" .nil 1 (.sect "r" .nil 2 .nil)) initState).root.map
        Prod.fst = ["r"] := by
  have hl : lookupAt ["a"] ([("a", Stats.init)] : NodeMap) =
      some Stats.init := by
    simp [mapLookup]
  have h := resolve_same_node ["a"] ["a"] [("a", Stats.init)] Stats.init 0
    "r" 1 2 initState
  have h4 := h.2.2.2 rfl rfl
  exact ⟨⟨hl, rfl, rfl⟩, h.1, h.2.1 hl, h4.1, h4.2.1, by simpa using h4.2.2⟩

/-- C8: in any reachable tree, a node with `call_count = 0` (never settled)
still holds its default field values, so its rendered row shows average,
min, max and standard deviation all as `0` — in particular the `+infinity`
min-initializer is mapped to `0` in the output. -/
theorem zero_count_renders_zero (t : ℕ) (prog : Prog) (σ : SysState)
    (hσ : FreshTree σ.root) (p : Path) (s : Stats)
    (hs : lookupAt p (run t prog σ).root = some s)
    (hc : s.call_count = 0) :
    s.min_time = none ∧
    ∀ (ind nm : String) (ptot : ℚ),
      (mkLine ind nm s ptot).avg = 0 ∧ (mkLine ind nm s ptot).minOut = 0 ∧
      (mkLine ind nm s ptot).maxOut = 0 ∧
      (mkLine ind nm s ptot).varClamped = 0 ∧ stddevOf s = 0 := by
  have hfresh : Fresh s := freshTree_run t prog σ hσ p s hs
  obtain ⟨h1, h2, h3, h4⟩ := hfresh hc
  refine ⟨h2, ?_⟩
  intro ind nm ptot
  have havg : avgOf s = 0 := by simp [avgOf, hc]
  have hvar : varianceOf s = 0 := by simp [varianceOf, hc]
  refine ⟨?_, ?_, ?_, ?_, ?_⟩
  · simp [mkLine, havg]
  · simp [mkLine, h2]
  · simp [mkLine, h3]
  · simp [mkLine, hvar]
  · simp [stddevOf, hvar]

theorem zero_count_renders_zero_witness :
    (FreshTree demoState.root ∧
      lookupAt ["a"] (run 0 .nil demoState).root = some Stats.init ∧
      Stats.init.call_count = 0) ∧
      Stats.init.min_time = none ∧
      (mkLine "" "a" Stats.init 7).avg = 0 ∧
      (mkLine "" "a" Stats.init 7).minOut = 0 ∧
      (mkLine "" "a" Stats.init 7).maxOut = 0 ∧
      (mkLine "" "a" Stats.init 7).varClamped = 0 ∧
      stddevOf Stats.init = 0 := by
  have hfr : FreshTree demoState.root := by
    have h := freshTree_touch ["a"] [] freshTree_nil
    rwa [touch_single_none "a" [] rfl] at h
  have hl : lookupAt ["a"] (run 0 .nil demoState).root = some Stats.init := by
    simp [run, demoState, mapLookup]
  have h := zero_count_renders_zero 0 .nil demoState hfr ["a"] Stats.init hl rfl
  obtain ⟨hmin, hrest⟩ := h
  obtain ⟨a1, a2, a3, a4, a5⟩ := hrest "" "a" 7
  exact ⟨⟨hfr, hl, rfl⟩, hmin, a1, a2, a3, a4, a5⟩

/-- C1 is false of the code: the constructor touches (and on first use
mutates) the shared tree at lines 23-27 with no lock held — `get_mutex()`
is locked only in the destructor (line 36) and in `report` (line 49).  The
claimed discipline "no entry point touches the Root table or any StatsNode
without the lock held" fails at the constructor's access (line 24). -/
theorem ctor_accesses_tree_unlocked :
    (∃ e ∈ ctorEvents, e.sharedTreeAccess = true ∧ e.lockHeld = false) ∧
    ¬ (∀ e ∈ ctorEvents ++ dtorEvents ++ reportEvents,
        e.sharedTreeAccess = true → e.lockHeld = true) := by
  decide

end SectionProfiler
